import Mathlib

/-!
Shallow embedding of `mjson.h` (a minimal single-pass JSON tokenizer, path
resolver and printer) and proofs about it.

Buffers are byte lists (`List Nat`, each entry a byte value 0..255).  A C
`const char *s` together with an `int len` is modelled as a `List Nat`
holding the readable memory starting at `s`, plus a separate `len : Nat`;
the list may be longer than `len` (memory behind the declared length), and
reads past the end of the list default to byte 0.  The C `int` return
values are modelled as `Int`.
-/

namespace Mjson

def MJSON_ERROR_INVALID_INPUT : Int := -1
def MJSON_ERROR_TOO_DEEP : Int := -2

/-- `esc1` from `mjson_esc`: the 8 raw characters that have one-letter
escapes: backspace, form feed, newline, carriage return, tab, `\`, `"`, `/`. -/
def esc1 : List Nat := [8, 12, 10, 13, 9, 92, 34, 47]

/-- `esc2` from `mjson_esc`: the corresponding escape letters
`b f n r t \ " /`. -/
def esc2 : List Nat := [98, 102, 110, 114, 116, 92, 34, 47]

/-- C `strchr` over a NUL-terminated constant string: position of the first
occurrence of byte `c`, where the terminating NUL itself is at position
`l.length` and is found when `c = 0`. -/
def strchrNT (l : List Nat) (c : Nat) : Option Nat :=
  (l ++ [0]).findIdx? (fun x => x == c)

/-- `mjson_esc(c, esc)`: with `esc` true map a raw character to its escape
letter, otherwise map an escape letter back to the raw character; 0 when
the byte has no mapping (including `c = 0`, where `strchr` finds the
terminator and the other table yields its terminator, i.e. 0). -/
def mjson_esc (c : Nat) (esc : Bool) : Nat :=
  match strchrNT (if esc then esc1 else esc2) c with
  | none => 0
  | some i => ((if esc then esc2 else esc1) ++ [0]).getD i 0

/-- Loop of `mjson_pass_string`: `l` is the memory from the current index
`i` on, `n` the remaining budget `len - i`.  A read past the end of the
modelled memory yields byte 0 and therefore (as in the source's NUL check)
an invalid-input error. -/
def mjson_pass_string_go : Nat → List Nat → Nat → Int
  | 0, _, _ => MJSON_ERROR_INVALID_INPUT
  | _ + 1, [], _ => MJSON_ERROR_INVALID_INPUT
  | 1, c :: rest, i =>
    -- remaining budget 1: `i + 1 < len` fails, so no escape pair is skipped
    if c = 0 then MJSON_ERROR_INVALID_INPUT
    else if c = 34 then (i : Int)
    else mjson_pass_string_go 0 rest (i + 1)
  | m + 2, c :: rest, i =>
    if c = 92 ∧ mjson_esc (rest.getD 0 0) true ≠ 0 then
      mjson_pass_string_go m (rest.drop 1) (i + 2)
    else if c = 0 then MJSON_ERROR_INVALID_INPUT
    else if c = 34 then (i : Int)
    else mjson_pass_string_go (m + 1) rest (i + 1)

/-- `mjson_pass_string(s, len)`: index of the byte that closes the string
body, or a negative error. -/
def mjson_pass_string (l : List Nat) (n : Nat) : Int :=
  mjson_pass_string_go n l 0

/-- Number of leading decimal-digit bytes. -/
def leadDigits : List Nat → Nat
  | [] => 0
  | c :: rest => if 48 ≤ c ∧ c ≤ 57 then leadDigits rest + 1 else 0

/-- Value of a list of decimal-digit bytes, most significant first. -/
def decDigitsVal (l : List Nat) : Nat :=
  l.foldl (fun a c => a * 10 + (c - 48)) 0

/-- Length of the exponent part accepted by C `strtod` at the given
position: `e`/`E`, an optional sign, then at least one digit; if no digit
follows, nothing of it is consumed. -/
def strtodExpLen (l : List Nat) : Nat :=
  match l with
  | [] => 0
  | e :: rest =>
    if e = 101 ∨ e = 69 then
      let sg := if rest.getD 0 0 = 43 ∨ rest.getD 0 0 = 45 then 1 else 0
      let d := leadDigits (rest.drop sg)
      if d = 0 then 0 else 1 + sg + d
    else 0

/-- Length of the subject sequence consumed by C `strtod` (C locale,
decimal forms: optional sign, digits with an optional fractional part, an
optional well-formed exponent); 0 when no conversion is performed.
Hexadecimal and infinity/NaN forms of `strtod` are not modelled — `mjson`
only invokes it on a byte that is `-` or a decimal digit, and no input
considered here starts a `0x` form. -/
def strtodLen (l : List Nat) : Nat :=
  let sg := if l.getD 0 0 = 45 ∨ l.getD 0 0 = 43 then 1 else 0
  let l1 := l.drop sg
  let d1 := leadDigits l1
  if d1 = 0 then
    if l1.getD 0 0 = 46 then
      let d2 := leadDigits (l1.drop 1)
      if d2 = 0 then 0 else sg + 1 + d2 + strtodExpLen (l1.drop (1 + d2))
    else 0
  else
    let l2 := l1.drop d1
    let fr := if l2.getD 0 0 = 46 then 1 + leadDigits (l2.drop 1) else 0
    sg + d1 + fr + strtodExpLen (l2.drop fr)

/-- Signed value of the exponent part accepted by C `strtod`. -/
def strtodExpVal (l : List Nat) : Int :=
  match l with
  | [] => 0
  | e :: rest =>
    if e = 101 ∨ e = 69 then
      let neg := rest.getD 0 0 = 45
      let sg := if rest.getD 0 0 = 43 ∨ rest.getD 0 0 = 45 then 1 else 0
      let d := leadDigits (rest.drop sg)
      if d = 0 then 0
      else
        let v : Int := decDigitsVal ((rest.drop sg).take d)
        if neg then -v else v
    else 0

/-- `(int) strtod(l, NULL)`: the parsed value truncated toward zero.  The
integer and fractional digits are combined exactly and scaled by the
exponent, so the truncation is exact (the double rounding of the C
implementation cannot change the truncated integer for the small indices
that occur in path expressions). -/
def strtodIntVal (l : List Nat) : Int :=
  let neg := l.getD 0 0 = 45
  let sg := if l.getD 0 0 = 45 ∨ l.getD 0 0 = 43 then 1 else 0
  let l1 := l.drop sg
  let d1 := leadDigits l1
  let hasDot := (l1.drop d1).getD 0 0 = 46
  let d2 := if hasDot then leadDigits (l1.drop (d1 + 1)) else 0
  if d1 = 0 ∧ (¬ hasDot ∨ d2 = 0) then 0
  else
    let allDigits := (l1.take d1) ++ ((l1.drop (d1 + 1)).take d2)
    let N := decDigitsVal allDigits
    let rest := l1.drop (d1 + (if hasDot then 1 + d2 else 0))
    let E := strtodExpVal rest
    let mag : Nat :=
      if (d2 : Int) ≤ E then N * 10 ^ (E - d2).toNat
      else N / 10 ^ ((d2 : Int) - E).toNat
    if neg then -(mag : Int) else (mag : Int)

/-- `memcmp(&s[i], w, w.length) == 0` for a fixed word `w`. -/
def memEq (s : List Nat) (i : Nat) (w : List Nat) : Bool :=
  (List.range w.length).all (fun k => s.getD (i + k) 0 == w.getD k 0)

/-- The four `expecting` modes of the `mjson` state machine. -/
inductive Expecting where
  | value
  | key
  | colon
  | commaOrEoo
deriving DecidableEq, Repr

/-- Whitespace bytes skipped by `mjson`: space, tab, newline, carriage
return. -/
def isWsByte (c : Nat) : Prop := c = 32 ∨ c = 9 ∨ c = 10 ∨ c = 13

instance (c : Nat) : Decidable (isWsByte c) := by
  unfold isWsByte; infer_instance

/-- The loop of `mjson(s, len, cb, ud)`.  The callback `cb` receives
`(state, event code, offset, length)`; the depth stack `nesting` keeps the
most recently opened bracket at its head, so `nesting.length` is `depth`
and the head is `nesting[depth - 1]`.  `fuel` only forces termination; the
wrapper supplies more than the loop can use, since every iteration either
returns or advances `i`, except that a sign with no digits leaves `i` in
place once and the very next iteration at that position returns. -/
def mjsonGo {σ : Type} (s : List Nat) (len : Nat) (cb : σ → Nat → Nat → Nat → σ) :
    Nat → Nat → Expecting → List Nat → σ → Int × σ
  | 0, _, _, _, st => (MJSON_ERROR_INVALID_INPUT, st)
  | fuel + 1, i, exp, nesting, st =>
    if len ≤ i then (MJSON_ERROR_INVALID_INPUT, st)
    else
      let c := s.getD i 0
      if isWsByte c then mjsonGo s len cb fuel (i + 1) exp nesting st
      else
        match exp with
        | .value =>
          if c = 123 then
            if 20 ≤ nesting.length then (MJSON_ERROR_TOO_DEEP, st)
            else mjsonGo s len cb fuel (i + 1) .key (c :: nesting) (cb st 123 i 1)
          else if c = 91 then
            if 20 ≤ nesting.length then (MJSON_ERROR_TOO_DEEP, st)
            else mjsonGo s len cb fuel (i + 1) .value (c :: nesting) (cb st 91 i 1)
          else if c = 93 then
            match nesting with
            | [] => (MJSON_ERROR_INVALID_INPUT, st)
            | top :: rest =>
              if c ≠ top + 2 then (MJSON_ERROR_INVALID_INPUT, st)
              else if rest.isEmpty then ((i : Int) + 1, cb st c i 1)
              else mjsonGo s len cb fuel (i + 1) .commaOrEoo rest (cb st c i 1)
          else if c = 116 ∧ i + 3 < len ∧ memEq s i [116, 114, 117, 101] then
            let st := cb st 13 i 4
            if nesting.isEmpty then ((i : Int) + 4, st)
            else mjsonGo s len cb fuel (i + 4) .commaOrEoo nesting st
          else if c = 110 ∧ i + 3 < len ∧ memEq s i [110, 117, 108, 108] then
            let st := cb st 15 i 4
            if nesting.isEmpty then ((i : Int) + 4, st)
            else mjsonGo s len cb fuel (i + 4) .commaOrEoo nesting st
          else if c = 102 ∧ i + 4 < len ∧ memEq s i [102, 97, 108, 115, 101] then
            let st := cb st 14 i 5
            if nesting.isEmpty then ((i : Int) + 5, st)
            else mjsonGo s len cb fuel (i + 5) .commaOrEoo nesting st
          else if c = 45 ∨ (48 ≤ c ∧ c ≤ 57) then
            let m := strtodLen (s.drop i)
            if m = 0 then
              -- no conversion: `i += end - &s[i] - 1` moves `i` one back,
              -- the number event has length 0 and the next iteration starts
              -- at this same position
              let st := cb st 12 i 0
              if nesting.isEmpty then ((i : Int), st)
              else mjsonGo s len cb fuel i .commaOrEoo nesting st
            else
              let st := cb st 12 i m
              if nesting.isEmpty then ((i : Int) + m, st)
              else mjsonGo s len cb fuel (i + m) .commaOrEoo nesting st
          else if c = 34 then
            let n := mjson_pass_string (s.drop (i + 1)) (len - i - 1)
            if n < 0 then (n, st)
            else
              let st := cb st 11 i (n.toNat + 2)
              if nesting.isEmpty then ((i : Int) + n.toNat + 2, st)
              else mjsonGo s len cb fuel (i + n.toNat + 2) .commaOrEoo nesting st
          else (MJSON_ERROR_INVALID_INPUT, st)
        | .key =>
          if c = 34 then
            let n := mjson_pass_string (s.drop (i + 1)) (len - i - 1)
            if n < 0 then (n, st)
            else mjsonGo s len cb fuel (i + n.toNat + 2) .colon nesting
              (cb st 1 i (n.toNat + 2))
          else if c = 125 then
            match nesting with
            | [] => (MJSON_ERROR_INVALID_INPUT, st)
            | top :: rest =>
              if c ≠ top + 2 then (MJSON_ERROR_INVALID_INPUT, st)
              else if rest.isEmpty then ((i : Int) + 1, cb st c i 1)
              else mjsonGo s len cb fuel (i + 1) .commaOrEoo rest (cb st c i 1)
          else (MJSON_ERROR_INVALID_INPUT, st)
        | .colon =>
          if c = 58 then mjsonGo s len cb fuel (i + 1) .value nesting (cb st 58 i 1)
          else (MJSON_ERROR_INVALID_INPUT, st)
        | .commaOrEoo =>
          match nesting with
          | [] => (MJSON_ERROR_INVALID_INPUT, st)
          | top :: rest =>
            if c = 44 then
              mjsonGo s len cb fuel (i + 1)
                (if top = 123 then .key else .value) (top :: rest) (cb st 44 i 1)
            else if c = 93 ∨ c = 125 then
              if c ≠ top + 2 then (MJSON_ERROR_INVALID_INPUT, st)
              else if rest.isEmpty then ((i : Int) + 1, cb st c i 1)
              else mjsonGo s len cb fuel (i + 1) .commaOrEoo rest (cb st c i 1)
            else (MJSON_ERROR_INVALID_INPUT, st)

/-- `mjson(s, len, cb, ud)`: run the scan loop from the start with ample
fuel (the loop makes at most `2 * len + 1` iterations). -/
def mjsonRun {σ : Type} (s : List Nat) (len : Nat)
    (cb : σ → Nat → Nat → Nat → σ) (st : σ) : Int × σ :=
  mjsonGo s len cb (2 * len + 2) 0 .value [] st

/-- `mjson(s, len, NULL, NULL)`: the scan result alone. -/
def mjson (s : List Nat) (len : Nat) : Int :=
  (mjsonRun s len (fun u _ _ _ => u) ()).1

/-- `struct msjon_find_data`.  `tokptr`/`toklen` are modelled as the
values written through the destination pointers (`none` = not yet
written), with `tokptr` kept as an offset into the buffer. -/
structure FindData where
  path : List Nat
  pos : Nat
  d1 : Int
  d2 : Int
  i1 : Int
  i2 : Int
  obj : Int
  tokoff : Option Nat
  toklen : Option Nat
  tok : Nat
deriving DecidableEq, Repr

/-- `while (data->path[data->pos] != ']') data->pos++; data->pos++;` — the
position just past the next `]` in the path.  The paths on which the
source reaches this loop contain a `]`; if none is present the C loop
would run off the path, which the total model renders as jumping past the
whole path. -/
def skipToRbracket (p : List Nat) (pos : Nat) : Nat :=
  match (p.drop pos).findIdx? (fun c => c == 93) with
  | some k => pos + k + 1
  | none => p.length + 1

/-- `memcmp(a + ai, b + bi, n) == 0`, reads past a list's end yielding
byte 0 (the path's NUL terminator; key texts never contain a NUL, so a
comparison that runs into the terminator fails there exactly as in C). -/
def memcmpEqB (a : List Nat) (ai : Nat) (b : List Nat) (bi n : Nat) : Bool :=
  (List.range n).all (fun k => a.getD (ai + k) 0 == b.getD (bi + k) 0)

/-- `mjson_find_cb(tok, s, off, len, ud)`: the path-matching event
consumer.  `d.path.getD d.pos 0 = 0` is C's `!data->path[data->pos]`
(cursor at the end of the NUL-terminated path). -/
def mjson_find_cb (s : List Nat) (d : FindData) (tok off len : Nat) : FindData :=
  if d.tok ≠ 0 then d
  else if tok = 123 then
    let d := if d.path.getD d.pos 0 = 0 ∧ d.d1 = d.d2 then { d with obj := (off : Int) } else d
    { d with d1 := d.d1 + 1 }
  else if tok = 91 then
    let d :=
      if d.d1 = d.d2 ∧ d.path.getD d.pos 0 = 91 then
        let d := { d with i1 := 0, i2 := strtodIntVal (d.path.drop (d.pos + 1)) }
        if d.i1 = d.i2 then { d with d2 := d.d2 + 1, pos := d.pos + 3 } else d
      else d
    let d := if d.path.getD d.pos 0 = 0 ∧ d.d1 = d.d2 then { d with obj := (off : Int) } else d
    { d with d1 := d.d1 + 1 }
  else if tok = 44 then
    if d.d1 = d.d2 + 1 then
      let d := { d with i1 := d.i1 + 1 }
      if d.i1 = d.i2 then
        { d with pos := skipToRbracket d.path d.pos, d2 := d.d2 + 1 }
      else d
    else d
  else if tok = 1 then
    if d.d1 = d.d2 + 1 ∧ d.path.getD d.pos 0 = 46 ∧
        memcmpEqB s (off + 1) d.path (d.pos + 1) (len - 2) then
      { d with d2 := d.d2 + 1, pos := d.pos + len - 1 }
    else d
  else if tok = 125 ∨ tok = 93 then
    let d := { d with d1 := d.d1 - 1 }
    if d.path.getD d.pos 0 = 0 ∧ d.d1 = d.d2 ∧ d.obj ≠ -1 then
      { d with tok := tok - 2, tokoff := some d.obj.toNat,
               toklen := some (off - d.obj.toNat + 1) }
    else d
  else if 10 < tok ∧ tok < 20 then
    if d.d1 = d.d2 ∧ d.path.getD d.pos 0 = 0 then
      { d with tok := tok, tokoff := some off, toklen := some len }
    else d
  else d

/-- The initializer of `struct msjon_find_data` in `mjson_find`. -/
def findInit (jp : List Nat) : FindData :=
  { path := jp, pos := 1, d1 := 0, d2 := 0, i1 := 0, i2 := 0, obj := -1,
    tokoff := none, toklen := none, tok := 0 }

/-- `mjson_find(s, len, jp, tokptr, toklen)`: the returned token kind and
the final values written through `tokptr`/`toklen` (which persist even
when the scan fails and the function reports the invalid token kind). -/
def mjson_find (s : List Nat) (len : Nat) (jp : List Nat) :
    Nat × Option Nat × Option Nat :=
  if jp.getD 0 0 ≠ 36 then (0, none, none)
  else
    let r := mjsonRun s len (mjson_find_cb s) (findInit jp)
    if r.1 < 0 then (0, r.2.tokoff, r.2.toklen)
    else (r.2.tok, r.2.tokoff, r.2.toklen)

/-- Loop of `mjson_unescape(s, len, to, n)`: `l` is the remaining input,
`j` the output position, `acc` the bytes written to `to` so far.  `none`
models the return value `-1`; `some (j, w)` the successful return of `j`
with `w` the bytes written (decoded bytes plus the terminating NUL). -/
def mjson_unescape_go : List Nat → Nat → Nat → List Nat → Option (Nat × List Nat)
  | l, n, j, acc =>
    if n ≤ j then none
    else
      match l with
      | [] => some (j, acc ++ [0])
      | [c] =>
        -- `i + 1 < len` fails: a trailing backslash is copied verbatim
        mjson_unescape_go [] n (j + 1) (acc ++ [c])
      | c :: c2 :: rest =>
        if c = 92 then
          let e := mjson_esc c2 false
          if e = 0 then none
          else mjson_unescape_go rest n (j + 1) (acc ++ [e])
        else mjson_unescape_go (c2 :: rest) n (j + 1) (acc ++ [c])

/-- `mjson_unescape(s, len, to, n)` with the input span given as the list
`l` (the source's `s`, `len` pair). -/
def mjson_unescape (l : List Nat) (n : Nat) : Option (Nat × List Nat) :=
  mjson_unescape_go l n 0 []

/-- `mjson_find_string(s, len, path, to, n)`: the returned count paired
with the bytes written into `to` (partial writes of a failing unescape are
not tracked). -/
def mjson_find_string (s : List Nat) (len : Nat) (path : List Nat) (n : Nat) :
    Int × List Nat :=
  let r := mjson_find s len path
  match r with
  | (tok, off?, sz?) =>
    if tok ≠ 11 then (0, [])
    else
      match off?, sz? with
      | some off, some sz =>
        match mjson_unescape ((s.drop (off + 1)).take (sz - 2)) n with
        | none => (-1, [])
        | some (j, w) => ((j : Int), w)
      | _, _ => (0, [])

/-- `mjson_fixed_buf_printer` with capacity `cap`: the sink state is the
bytes accepted so far; at most `cap - len` further bytes are accepted and
the rest silently dropped. -/
def mjson_fixed_buf_printer (cap : Nat) (buf : List Nat) (bytes : List Nat) :
    List Nat × Int :=
  let l := min bytes.length (cap - buf.length)
  (buf ++ bytes.take l, (l : Int))

/-- `mjson_print_int(n, fn, ud)` over an arbitrary output sink `fn`
(state, bytes) ↦ (state, count accepted).  As in the source, the sink's
return value for the minus sign is discarded and `1` is added instead. -/
def mjson_print_int {σ : Type} (fn : σ → List Nat → σ × Int) (n : Int) (st : σ) :
    σ × Int :=
  if h : n < 0 then
    let st1 := (fn st [45]).1
    let r := mjson_print_int fn (-n) st1
    (r.1, r.2 + 1)
  else
    let p := if h2 : 10 < n then mjson_print_int fn (n / 10) st else (st, 0)
    let q := fn p.1 [48 + (n % 10).toNat]
    (q.1, p.2 + q.2)
termination_by 2 * n.natAbs + (if n < 0 then 1 else 0)
decreasing_by
  · have h1 : ¬(-n < 0) := by omega
    simp only [h, h1, if_true, if_false]
    omega
  · have h0 : (0 : Int) ≤ n := by omega
    obtain ⟨m, rfl⟩ := Int.eq_ofNat_of_zero_le h0
    have h1 : ¬((m : Int) < 0) := by omega
    have h2m : (10 : Nat) < m := by exact_mod_cast h2
    have h3 : ((m : Int)) / ((10 : Nat) : Int) = ((m / 10 : Nat) : Int) :=
      (Int.ofNat_ediv m 10).symm
    have h4 : ¬(((m / 10 : Nat) : Int) < 0) := by omega
    have h5 : m / 10 < m := Nat.div_lt_self (by omega) (by omega)
    clear h2m
    simp only [show ((10 : Int)) = ((10 : Nat) : Int) from rfl, h3, h1, h4,
      if_false, Int.natAbs_ofNat]
    omega

/-- The raw text of a key token with span `(off, len)`: the bytes between
the quotes, `s[off+1 .. off+len-2]`. -/
def keyText (s : List Nat) (off len : Nat) : List Nat :=
  (s.drop (off + 1)).take (len - 2)

/-- Modelled from the spec's wording, for comparison with the code: the
name of a `.name` path segment whose dot is at `pos` — the bytes after the
dot "up to the next `.`, `[`, or end of path". -/
def specPathSegment (p : List Nat) (pos : Nat) : List Nat :=
  (p.drop (pos + 1)).takeWhile (fun c => ¬(c = 46 ∨ c = 91))

/-- Full decode of an escaped string body, with no output capacity bound:
`none` when a backslash is followed (within the input) by a byte that is
not one of the 8 escape letters, otherwise the decoded bytes.  This is the
reference function the `mjson_unescape` loop is proved against. -/
def jsonDecode : List Nat → Option (List Nat)
  | [] => some []
  | [c] => (jsonDecode []).map (c :: ·)
  | c :: c2 :: rest =>
    if c = 92 then
      let e := mjson_esc c2 false
      if e = 0 then none else (jsonDecode rest).map (e :: ·)
    else (jsonDecode (c2 :: rest)).map (c :: ·)

/-- The byte list of `'{"a":1,"b":[10,20,30]}'` (22 bytes). -/
def bufNested : List Nat :=
  [123, 34, 97, 34, 58, 49, 44, 34, 98, 34, 58, 91,
   49, 48, 44, 50, 48, 44, 51, 48, 93, 125]

/-- The byte list of the path `$.b[1]`. -/
def pathB1 : List Nat := [36, 46, 98, 91, 49, 93]

/-- The byte list of `'{"b.c":7}'` (9 bytes). -/
def bufDotKey : List Nat := [123, 34, 98, 46, 99, 34, 58, 55, 125]

/-- The byte list of the path `$.b.c`. -/
def pathBC : List Nat := [36, 46, 98, 46, 99]

/-- The resolver state just before the key event for `"b.c"` when scanning
`bufDotKey` against `pathBC`: the opening `{` has raised `d1` to 1. -/
def dotKeyState : FindData :=
  { findInit pathBC with d1 := 1 }

/-- C1: the claim says a non-negative result of `mjson` never exceeds the
supplied length.  The code violates it: on the two bytes `12` with
declared length 1, `strtod` reads past the declared length (it has no
length bound) and the scan reports 2 consumed bytes, more than `len = 1`. -/
theorem c1_scan_overreads_declared_length :
    mjson [49, 50] 1 = 2 ∧ ¬((2 : Int) ≤ (1 : Nat)) := by
  constructor
  · rfl
  · decide

/-- C2 counterexample: the claim says a backslash not followed by one of
the 8 escape letters makes `mjson` return a negative error code.  On the
4-byte input `"\x"` (quote, backslash, `x`, quote) — where `x` is not an
escape letter — the scan instead succeeds and returns 4. -/
theorem c2_invalid_escape_accepted :
    mjson [34, 92, 120, 34] 4 = 4 ∧ ¬(mjson [34, 92, 120, 34] 4 < 0) := by
  constructor
  · rfl
  · decide

/-- C3: with the fixed maximum depth of 20, a value nested 21 container
levels deep is rejected with `MJSON_ERROR_TOO_DEEP` and a valid value
nested exactly 20 levels deep is accepted, returning its length. -/
theorem c3_depth_bounds :
    mjson (List.replicate 21 91 ++ [48] ++ List.replicate 21 93) 43 =
      MJSON_ERROR_TOO_DEEP ∧
    mjson (List.replicate 20 91 ++ [48] ++ List.replicate 20 93) 41 = 41 := by
  constructor
  · decide
  · decide

/-- C5: resolving `$.b[1]` in `'{"a":1,"b":[10,20,30]}'` yields the number
token kind (12), with the span written through the destinations being
offset 15 and length 2 — exactly the bytes `20` of the buffer. -/
theorem c5_find_second_array_element :
    mjson_find bufNested 22 pathB1 = (12, some 15, some 2) ∧
    (bufNested.drop 15).take 2 = [50, 48] := by
  constructor
  · decide
  · decide

/-- C7: each of the 8 special characters escapes to a non-zero one-letter
code and unescaping that code restores the character, and unescaping then
escaping is the identity on the 8 escape letters. -/
theorem c7_esc_roundtrip :
    (∀ c ∈ esc1, mjson_esc c true ≠ 0 ∧ mjson_esc (mjson_esc c true) false = c) ∧
    (∀ e ∈ esc2, mjson_esc (mjson_esc e false) true = e) := by
  constructor
  · intro c hc
    simp only [esc1, List.mem_cons, List.not_mem_nil, or_false] at hc
    rcases hc with rfl | rfl | rfl | rfl | rfl | rfl | rfl | rfl <;> decide
  · intro e he
    simp only [esc2, List.mem_cons, List.not_mem_nil, or_false] at he
    rcases he with rfl | rfl | rfl | rfl | rfl | rfl | rfl | rfl <;> decide

/-- C7 witness: the round trip at the concrete character backspace (8). -/
theorem c7_esc_roundtrip_witness :
    mjson_esc 8 true ≠ 0 ∧ mjson_esc (mjson_esc 8 true) false = 8 :=
  c7_esc_roundtrip.1 8 (by decide)

set_option maxRecDepth 4000

/-- C8: the claim says `mjson_print_int` always emits the exact decimal
representation.  The code's recursion guard is `n > 10` where the
algorithm needs `n > 9`, so whenever a division chain reaches exactly 10
the leading digit 1 is lost: through a fixed 16-byte sink, -1024 emits
`-024` (bytes 45,48,50,52; not `-1024`) and 10 emits `0`. -/
theorem c8_print_int_drops_digit :
    mjson_print_int (fun st b => mjson_fixed_buf_printer 16 st b) (-1024) [] =
      ([45, 48, 50, 52], 4) ∧
    mjson_print_int (fun st b => mjson_fixed_buf_printer 16 st b) 10 [] =
      ([48], 1) ∧
    ([45, 48, 50, 52] : List Nat) ≠ [45, 49, 48, 50, 52] := by
  refine ⟨?_, ?_, by decide⟩
  · simp [mjson_print_int, mjson_fixed_buf_printer]
  · simp [mjson_print_int, mjson_fixed_buf_printer]

/-- C6: a path whose first byte is not `$` makes `mjson_find` report the
invalid token kind with nothing written, independently of the buffer (the
tokenizer is never consulted); and whenever the underlying scan returns a
negative error code, `mjson_find` reports the invalid token kind 0 rather
than propagating the negative sentinel. -/
theorem c6_find_rejects_and_masks (s : List Nat) (len : Nat) (jp : List Nat) :
    (jp.getD 0 0 ≠ 36 →
      mjson_find s len jp = (0, none, none) ∧
      ∀ (s2 : List Nat) (len2 : Nat), mjson_find s2 len2 jp = mjson_find s len jp) ∧
    ((mjsonRun s len (mjson_find_cb s) (findInit jp)).1 < 0 →
      (mjson_find s len jp).1 = 0) := by
  constructor
  · intro h
    have h2 : ¬(jp[0]?.getD 0 = 36) := by simpa [List.getD] using h
    constructor
    · simp [mjson_find, List.getD, h2]
    · intro s2 len2
      simp [mjson_find, List.getD, h2]
  · intro h
    by_cases hp : jp[0]?.getD 0 = 36
    · simp [mjson_find, List.getD, hp, h]
    · simp [mjson_find, List.getD, hp]

/-- C6 witness: the path `x` (not starting with `$`) on the empty buffer. -/
theorem c6_find_rejects_witness : mjson_find [] 0 [120] = (0, none, none) :=
  ((c6_find_rejects_and_masks [] 0 [120]).1 (by decide)).1

/-- Helper for C9: from any position `i` at or before the first
non-whitespace byte, which is a `]`, the scan loop in value mode with an
empty depth stack returns the invalid-input error (the empty-stack close
is a mismatch; the model never reads below the stack). -/
theorem mjsonGo_leading_rbracket (s : List Nat) (len k : Nat)
    (hk : k < len) (hws : ∀ j, j < k → isWsByte (s.getD j 0))
    (hrb : s.getD k 0 = 93) :
    ∀ (fuel i : Nat), i ≤ k → k - i < fuel →
      mjsonGo s len (fun (u : Unit) _ _ _ => u) fuel i .value [] () =
        (MJSON_ERROR_INVALID_INPUT, ()) := by
  intro fuel
  induction fuel with
  | zero => intro i _ hf; omega
  | succ f ih =>
    intro i hi hf
    have hil : ¬(len ≤ i) := by omega
    rcases Nat.lt_or_ge i k with hlt | hge
    · have hw := hws i hlt
      simp only [mjsonGo, hil, if_false, hw, if_true]
      exact ih (i + 1) (by omega) (by omega)
    · have hik : i = k := by omega
      subst hik
      have hrb2 : s[i]?.getD 0 = 93 := by simpa [List.getD] using hrb
      simp [mjsonGo, hil, hrb2, isWsByte]

/-- C9: whenever the first non-whitespace byte of the input is `]` (no
bracket is open, the depth stack is empty), `mjson` returns
`MJSON_ERROR_INVALID_INPUT`; in the total embedding the empty stack is
matched directly, so no out-of-bounds stack slot is ever read. -/
theorem c9_close_bracket_on_empty_stack (s : List Nat) (len k : Nat)
    (hk : k < len) (hws : ∀ j, j < k → isWsByte (s.getD j 0))
    (hrb : s.getD k 0 = 93) :
    mjson s len = MJSON_ERROR_INVALID_INPUT := by
  unfold mjson mjsonRun
  rw [mjsonGo_leading_rbracket s len k hk hws hrb (2 * len + 2) 0 (by omega)
    (by omega)]

/-- C9 witness: a space followed by `]`. -/
theorem c9_close_bracket_witness : mjson [32, 93] 2 = MJSON_ERROR_INVALID_INPUT :=
  c9_close_bracket_on_empty_stack [32, 93] 2 1 (by decide)
    (fun j hj => by
      have hj0 : j = 0 := by omega
      subst hj0
      decide)
    (by decide)

/-- C2 amended: a backslash in a string body followed by any non-NUL byte
`b` that has no raw-to-escape mapping (`mjson_esc b 1 = 0`, i.e. `b` is
not one of the 8 raw special characters — in particular any byte that is
not an escape letter and not `\`, `"`, `/`) is treated as an ordinary
character: the escape pair is not skipped, nothing is rejected, and the
4-byte input `"\b"` scans successfully, consuming all 4 bytes. -/
theorem c2_nonescape_backslash_accepted (b : Nat) (hb0 : b ≠ 0)
    (hbe : mjson_esc b true = 0) :
    mjson [34, 92, b, 34] 4 = 4 := by
  have hb92 : b ≠ 92 := fun h => by subst h; exact absurd hbe (by decide)
  have hb34 : b ≠ 34 := fun h => by subst h; exact absurd hbe (by decide)
  unfold mjson mjsonRun
  simp [mjsonGo, mjson_pass_string, mjson_pass_string_go, isWsByte,
    hbe, hb0, hb92, hb34]

/-- C2 amended witness: the concrete byte `x` (120). -/
theorem c2_nonescape_backslash_accepted_witness : mjson [34, 92, 120, 34] 4 = 4 :=
  c2_nonescape_backslash_accepted 120 (by decide) (by decide)

/-- Reference form of the `mjson_unescape` loop: decode everything, then
compare the decoded length against what is left of the capacity. -/
def unescSpec (l : List Nat) (n j : Nat) (acc : List Nat) : Option (Nat × List Nat) :=
  match jsonDecode l with
  | none => none
  | some d =>
    if j + d.length < n then some (j + d.length, acc ++ d ++ [0]) else none

/-- The `mjson_unescape` loop, characterized against the unbounded decode:
it succeeds exactly when the decode succeeds and fits strictly below the
capacity, in which case it appends the decoded bytes and a NUL. -/
theorem mjson_unescape_go_eq (l : List Nat) : ∀ (n j : Nat) (acc : List Nat),
    mjson_unescape_go l n j acc = unescSpec l n j acc := by
  induction l using jsonDecode.induct with
  | case1 =>
    intro n j acc
    by_cases h : n ≤ j
    · simp [mjson_unescape_go, unescSpec, jsonDecode, h, show ¬ j < n by omega]
    · simp [mjson_unescape_go, unescSpec, jsonDecode, h, show j < n by omega]
  | case2 c ih =>
    intro n j acc
    rw [show mjson_unescape_go [c] n j acc =
        (if n ≤ j then none else mjson_unescape_go [] n (j + 1) (acc ++ [c])) from
      rfl, ih]
    by_cases h : n ≤ j
    · simp [unescSpec, jsonDecode, h, show ¬ j + 1 < n by omega]
    · by_cases h4 : j + 1 < n
      · simp [unescSpec, jsonDecode, h, h4]
      · simp [unescSpec, jsonDecode, h, h4]
  | case3 c2 rest e h0 =>
    intro n j acc
    have h0e : mjson_esc c2 false = 0 := h0
    simp [mjson_unescape_go, unescSpec, jsonDecode, h0e]
  | case4 c2 rest e hne ih =>
    intro n j acc
    have hne2 : ¬ mjson_esc c2 false = 0 := hne
    rw [show mjson_unescape_go (92 :: c2 :: rest) n j acc =
        (if n ≤ j then none
         else if mjson_esc c2 false = 0 then none
         else mjson_unescape_go rest n (j + 1) (acc ++ [mjson_esc c2 false])) from
      rfl, ih]
    rcases hd : jsonDecode rest with _ | d
    · simp [unescSpec, jsonDecode, hne2, hd]
    · by_cases hj : n ≤ j
      · simp [unescSpec, jsonDecode, hne2, hd, hj,
          show ¬ j + (d.length + 1) < n by omega]
      · by_cases h4 : j + 1 + d.length < n
        · simp [unescSpec, jsonDecode, hne2, hd, hj, h4,
            show j + 1 + d.length = j + (d.length + 1) from by omega]
        · simp [unescSpec, jsonDecode, hne2, hd, hj, h4,
            show ¬ j + (d.length + 1) < n from by omega]
  | case5 c c2 rest hc ih =>
    intro n j acc
    have hstep : mjson_unescape_go (c :: c2 :: rest) n j acc =
        (if n ≤ j then none
         else mjson_unescape_go (c2 :: rest) n (j + 1) (acc ++ [c])) := by
      simp [mjson_unescape_go, hc]
    rw [hstep, ih]
    rcases hd : jsonDecode (c2 :: rest) with _ | d
    · simp [unescSpec, jsonDecode, hc, hd]
    · by_cases hj : n ≤ j
      · simp [unescSpec, jsonDecode, hc, hd, hj,
          show ¬ j + (d.length + 1) < n by omega]
      · by_cases h4 : j + 1 + d.length < n
        · simp [unescSpec, jsonDecode, hc, hd, hj, h4,
            show j + 1 + d.length = j + (d.length + 1) from by omega]
        · simp [unescSpec, jsonDecode, hc, hd, hj, h4,
            show ¬ j + (d.length + 1) < n from by omega]

/-- C10: on success `mjson_unescape` writes the decoded bytes followed by
a terminating NUL and returns the decoded length, which is strictly below
the capacity `n`; it returns -1 (`none`) whenever the decoded length is at
least `n`; and consequently `mjson_find_string` returns -1 on a matched
string whose decoded form does not leave room for the terminator. -/
theorem c10_unescape_needs_room_for_nul (s : List Nat) (n : Nat) :
    (∀ j w, mjson_unescape s n = some (j, w) →
      ∃ d, jsonDecode s = some d ∧ j = d.length ∧ w = d ++ [0] ∧
        d.length + 1 ≤ n) ∧
    (∀ d, jsonDecode s = some d → n ≤ d.length → mjson_unescape s n = none) ∧
    (∀ len path off sz d,
      mjson_find s len path = (11, some off, some sz) →
      jsonDecode ((s.drop (off + 1)).take (sz - 2)) = some d →
      n ≤ d.length →
      (mjson_find_string s len path n).1 = -1) := by
  refine ⟨?_, ?_, ?_⟩
  · intro j w hjw
    rw [mjson_unescape, mjson_unescape_go_eq] at hjw
    unfold unescSpec at hjw
    rcases hd : jsonDecode s with _ | d <;> rw [hd] at hjw
    · simp at hjw
    · have hjw2 : (if 0 + d.length < n then
          some (0 + d.length, ([] : List Nat) ++ d ++ [0]) else none) =
          some (j, w) := hjw
      by_cases hc : 0 + d.length < n
      · rw [if_pos hc] at hjw2
        simp only [Option.some.injEq, Prod.mk.injEq] at hjw2
        obtain ⟨hj, hw⟩ := hjw2
        exact ⟨d, rfl, by omega, by simpa using hw.symm, by omega⟩
      · rw [if_neg hc] at hjw2
        simp at hjw2
  · intro d hd hn
    rw [mjson_unescape, mjson_unescape_go_eq]
    unfold unescSpec
    rw [hd]
    show (if 0 + d.length < n then
        some (0 + d.length, ([] : List Nat) ++ d ++ [0]) else none) = none
    rw [if_neg (by omega)]
  · intro len path off sz d hfind hdec hn
    have hu : mjson_unescape ((s.drop (off + 1)).take (sz - 2)) n = none := by
      rw [mjson_unescape, mjson_unescape_go_eq]
      unfold unescSpec
      rw [hdec]
      show (if 0 + d.length < n then
          some (0 + d.length, ([] : List Nat) ++ d ++ [0]) else none) = none
      rw [if_neg (by omega)]
    unfold mjson_find_string
    rw [hfind]
    simp [hu]

/-- C10 witness: the two-byte body `\n` decodes to one byte; with capacity
1 there is no room for the terminator and the unescape returns -1. -/
theorem c10_unescape_needs_room_witness : mjson_unescape [92, 110] 1 = none :=
  (c10_unescape_needs_room_for_nul [92, 110] 1).2.1 [10] rfl (by decide)

/-- The `memcmp` of `m` in-bounds bytes of `a` against bytes of `b` (with
the 0-padding standing for `b`'s NUL terminator) succeeds exactly when the
compared slice of `a` is a prefix of the rest of `b`, provided the slice
contains no NUL byte. -/
theorem memcmpEqB_eq_true_iff_prefix (a : List Nat) (ai : Nat) (b : List Nat)
    (bi m : Nat) (hlen : ai + m ≤ a.length)
    (hnz : ∀ x ∈ (a.drop ai).take m, x ≠ 0) :
    (memcmpEqB a ai b bi m = true ↔ (a.drop ai).take m <+: b.drop bi) := by
  have htl : ((a.drop ai).take m).length = m := by
    simp only [List.length_take, List.length_drop]
    omega
  have hta : ∀ k, k < m → ((a.drop ai).take m).getD k 0 = a.getD (ai + k) 0 := by
    intro k hk
    rw [List.getD_eq_getElem?_getD, List.getD_eq_getElem?_getD,
      List.getElem?_take_of_lt hk, List.getElem?_drop]
  have hpb : ∀ k, (b.drop bi).getD k 0 = b.getD (bi + k) 0 := by
    intro k
    rw [List.getD_eq_getElem?_getD, List.getD_eq_getElem?_getD,
      List.getElem?_drop]
  have hmem : memcmpEqB a ai b bi m = true ↔
      ∀ k, k < m → a.getD (ai + k) 0 = b.getD (bi + k) 0 := by
    simp only [memcmpEqB, List.all_eq_true, List.mem_range, beq_iff_eq,
      List.getD_eq_getElem?_getD]
  rw [hmem]
  constructor
  · intro H
    by_cases hpl : m ≤ (b.drop bi).length
    · rw [List.prefix_iff_eq_take]
      symm
      apply List.ext_getElem
      · simp only [List.length_take, htl]
        omega
      · intro k hk1 hk2
        have hk : k < m := by
          simp only [List.length_take, htl] at hk1
          omega
        have h1 : ((a.drop ai).take m)[k] = ((a.drop ai).take m).getD k 0 :=
          (List.getD_eq_getElem _ _ hk2).symm
        have h2 : ((b.drop bi).take ((a.drop ai).take m).length)[k] =
            (b.drop bi).getD k 0 := by
          rw [List.getElem_take]
          exact (List.getD_eq_getElem _ _ (by omega)).symm
        rw [h1, h2, hta k hk, hpb k, H k hk]
    · exfalso
      have hk : (b.drop bi).length < m := by omega
      have h0 : (b.drop bi).getD (b.drop bi).length 0 = 0 :=
        List.getD_eq_default _ _ (le_refl _)
      have h1 : ((a.drop ai).take m).getD (b.drop bi).length 0 ≠ 0 := by
        apply hnz
        rw [List.getD_eq_getElem _ _ (by omega)]
        exact List.getElem_mem _
      apply h1
      rw [hta _ hk, H _ hk, ← hpb]
      exact h0
  · intro hpre k hk
    have hkp : k < (b.drop bi).length := by
      have := hpre.length_le
      omega
    rw [← hta k hk, ← hpb k, List.getD_eq_getElem _ _ (by omega),
      List.getD_eq_getElem _ _ hkp]
    exact hpre.getElem (by omega)

/-- C4 counterexample: the claim says a key advances the path cursor iff
its text equals the whole next `.name` segment (up to the next `.`, `[`,
or end), so the key `b.c` — whose text spans two segments of `$.b.c` —
should not advance.  In fact the key event for `"b.c"` (offset 1, length
5, at depth `d1 = d2 + 1`) advances the cursor from 1 to 5 and raises
`d2`, even though the key text `b.c` differs from the segment name `b`;
consequently the whole resolution of `$.b.c` in `{"b.c":7}` succeeds and
returns the number token `7`. -/
theorem c4_segment_spanning_key_advances :
    (mjson_find_cb bufDotKey dotKeyState 1 1 5).pos = 5 ∧
    dotKeyState.pos = 1 ∧
    (mjson_find_cb bufDotKey dotKeyState 1 1 5).d2 = dotKeyState.d2 + 1 ∧
    keyText bufDotKey 1 5 ≠ specPathSegment pathBC 1 ∧
    mjson_find bufDotKey 9 pathBC = (12, some 7, some 1) := by
  refine ⟨by decide, by decide, by decide, by decide, by decide⟩

/-- C4 amended: on a key token event (at depth `d1 = d2 + 1`, cursor on a
`.`), the resolver advances the cursor iff the key's raw text is a
byte-for-byte prefix of the *remaining path* after the dot — not iff it
equals the next segment.  A key equal to the whole segment advances, but
so does any key whose text continues across segment boundaries; the
cursor then moves past exactly the key's length.  (Stated for key events
whose span lies inside the buffer and whose text has no NUL byte, which
the string scanner guarantees.) -/
theorem c4_key_match_is_prefix_match (s : List Nat) (d : FindData)
    (off len : Nat) (htok : d.tok = 0) (hlen2 : 2 ≤ len)
    (hbound : off + len - 1 ≤ s.length)
    (hnz : ∀ x ∈ keyText s off len, x ≠ 0) :
    mjson_find_cb s d 1 off len =
      if d.d1 = d.d2 + 1 ∧ d.path.getD d.pos 0 = 46 ∧
          keyText s off len <+: d.path.drop (d.pos + 1) then
        { d with d2 := d.d2 + 1, pos := d.pos + len - 1 }
      else d := by
  have hm : (off + 1) + (len - 2) ≤ s.length := by omega
  have hiff := memcmpEqB_eq_true_iff_prefix s (off + 1) d.path (d.pos + 1)
    (len - 2) hm hnz
  rw [show (s.drop (off + 1)).take (len - 2) = keyText s off len from rfl] at hiff
  by_cases h1 : d.d1 = d.d2 + 1
  · by_cases h2 : d.path.getD d.pos 0 = 46
    · by_cases h3 : keyText s off len <+: d.path.drop (d.pos + 1)
      · have hb : memcmpEqB s (off + 1) d.path (d.pos + 1) (len - 2) = true :=
          hiff.mpr h3
        simp [mjson_find_cb, htok, h1, h2, h3, hb]
      · have hb : ¬ memcmpEqB s (off + 1) d.path (d.pos + 1) (len - 2) = true :=
          fun h => h3 (hiff.mp h)
        simp [mjson_find_cb, htok, h1, h2, h3, hb]
    · have h2n : ¬ d.path[d.pos]?.getD 0 = 46 := by
        simpa [List.getD] using h2
      simp [mjson_find_cb, htok, h1, h2n]
  · simp [mjson_find_cb, htok, h1]

/-- C4 amended witness: the `"b.c"` key event, whose text is a prefix of
the remaining path `b.c`, advances the cursor to 5 and raises `d2`. -/
theorem c4_key_match_witness :
    mjson_find_cb bufDotKey dotKeyState 1 1 5 =
      { dotKeyState with d2 := dotKeyState.d2 + 1, pos := dotKeyState.pos + 5 - 1 } := by
  rw [c4_key_match_is_prefix_match bufDotKey dotKeyState 1 5 rfl (by decide)
    (by decide) (by decide)]
  rw [if_pos (by decide)]

end Mjson
